import Mathlib

/-!
libwaveblocks: block assembly of the multi-component inner product, and the
diagonal difference of the local remainder.

Shallow embedding of

* `waveblocks/vector_inner_product.hpp` (`VectorInnerProduct::build_matrix`,
  `VectorInnerProduct::default_op`), and
* `waveblocks/potentials/modules/localRemainder.hpp`
  (`helper::DiagonalDifference`, `General`, `Abstract`).

Conventions.

* Scalars are an abstract type `α`; the assembly only copies them.  Where the
  code subtracts (`-=`) the scalar type is any type with a subtraction;
  `Binary64` gives the rounding arithmetic of machine doubles on integer values.
* `dim_t` and `size_t` are modelled by `Nat`: a packet whose sizes exceed the
  machine range cannot have its `total_size × total_size` matrix allocated.
* Every indexed access that the C++ performs unchecked (`offsets[i]`,
  `packet.component(i)`, `result.block(...)`) is checked here and makes the
  computation return `none` when it is out of range.
* The scalar engine `InhomogeneousInnerProduct::build_matrix` is a collaborator
  whose code is in another header; it is a parameter `IP` of the embedding.
-/

namespace waveblocks

/-! ## Data model -/

/-- Dense matrix with run-time dimensions (`CMatrix<Eigen::Dynamic, Eigen::Dynamic>`,
also used for the `D × N` node matrix and the `1 × N` operator values). -/
structure CMatrix (α : Type) where
  /-- Number of rows. -/
  rows : Nat
  /-- Number of columns. -/
  cols : Nat
  /-- Coefficient access `M(r, c)`. -/
  coeff : Nat → Nat → α

/-- Scalar wavepacket: one component of a multi-component packet. -/
structure HaWp (E P S K : Type) where
  /-- Scaling parameter. -/
  eps : E
  /-- Gaussian parameter set. -/
  parameters : P
  /-- Basis shape. -/
  shape : S
  /-- Coefficient vector. -/
  coefficients : List K

/-- Operator type `op_t`: `(nodes, pos, i, j) ↦ values at the nodes`. -/
abbrev op_t (α ρ : Type) : Type := CMatrix α → CMatrix ρ → Nat → Nat → CMatrix α

/-- Type of the scalar engine `InhomogeneousInnerProduct::build_matrix(bra, ket, f)`. -/
abbrev Engine (E P S K α ρ : Type) : Type :=
  HaWp E P S K → HaWp E P S K → (CMatrix α → CMatrix ρ → CMatrix α) → CMatrix α

/-! ## Checked primitives -/

/-- Checked `v[i] = x` on a `std::vector<dim_t>`. -/
def assign (v : List Nat) (i x : Nat) : Option (List Nat) :=
  if i < v.length then some (v.set i x) else none

/-- The loop `for (dim_t i = lo; i < hi; ++i) body`, threading the state. -/
def forLoop {σ : Type} (lo hi : Nat) (body : Nat → σ → Option σ) (s : σ) : Option σ :=
  (List.range' lo (hi - lo)).foldlM (fun s i => body i s) s

/-- Whether the cell `(a, b)` lies in the block that starts at
`(startRow, startCol)` and spans `blockRows × blockCols`. -/
def in_block (startRow startCol blockRows blockCols a b : Nat) : Bool :=
  decide (startRow ≤ a ∧ a < startRow + blockRows ∧ startCol ≤ b ∧ b < startCol + blockCols)

/-- Checked `M.block(startRow, startCol, blockRows, blockCols) = B`: the block
must lie inside `M`; its cells receive the coefficients of `B`, every other
cell is kept.  That `B` has the shape of the block is a precondition of Eigen
which the embedding does not check: only the leading `blockRows × blockCols`
coefficients of `B` are read. -/
def CMatrix.assignBlock {α : Type} (M : CMatrix α)
    (startRow startCol blockRows blockCols : Nat) (B : CMatrix α) : Option (CMatrix α) :=
  if startRow + blockRows ≤ M.rows ∧ startCol + blockCols ≤ M.cols then
    some { rows := M.rows
           cols := M.cols
           coeff := fun a b =>
             if in_block startRow startCol blockRows blockCols a b then
               B.coeff (a - startRow) (b - startCol)
             else M.coeff a b }
  else none

/-! ## `VectorInnerProduct` -/

namespace VectorInnerProduct

variable {E P S K α ρ : Type}

/-- Size of a component's coefficient vector, `comp.coefficients().size()`. -/
def size (comp : HaWp E P S K) : Nat := comp.coefficients.length

/-- Lines 68-72: the offsets vector.
`offsets(n_components)` is zero-filled, `offsets[0] = 0`, and for
`i = 1 .. n_components - 1`, `offsets[i] = packet.component(i-1).coefficients().size()`. -/
def build_offsets (packet : List (HaWp E P S K)) : Option (List Nat) := do
  let n_components := packet.length
  let offsets := List.replicate n_components 0
  let offsets ← assign offsets 0 0
  forLoop 1 n_components (fun i offsets => do
    let prev ← packet[i - 1]?
    assign offsets i (size prev)) offsets

/-- Lines 75-78: `total_size`, the sum of all component sizes. -/
def total_size (packet : List (HaWp E P S K)) : Nat :=
  packet.foldl (fun total comp => total + size comp) 0

/-- The arguments of `result.block(...)` for the pair `(i, j)` (lines 86-88):
`(offsets[i], offsets[j], size_i, size_j)`. -/
def block_region (packet : List (HaWp E P S K)) (offsets : List Nat) (i j : Nat) :
    Option (Nat × Nat × Nat × Nat) := do
  let oi ← offsets[i]?
  let oj ← offsets[j]?
  let ci ← packet[i]?
  let cj ← packet[j]?
  pure (oi, oj, size ci, size cj)

/-- Lines 83-92: one iteration of the inner loop, the block write of pair `(i, j)`. -/
def write_block (IP : Engine E P S K α ρ) (packet : List (HaWp E P S K)) (op : op_t α ρ)
    (offsets : List Nat) (i j : Nat) (result : CMatrix α) : Option (CMatrix α) := do
  let (oi, oj, si, sj) ← block_region packet offsets i j
  let ci ← packet[i]?
  let cj ← packet[j]?
  result.assignBlock oi oj si sj (IP ci cj (fun x q => op x q i j))

/-- The function `VectorInnerProduct::build_matrix(packet, op)`.
`mem` is the content of the storage that `CMatrixNN result(total_size, total_size)`
allocates: Eigen does not fill it, so a cell that no block write reaches keeps
`mem`. -/
def build_matrix (IP : Engine E P S K α ρ) (mem : Nat → Nat → α)
    (packet : List (HaWp E P S K)) (op : op_t α ρ) : Option (CMatrix α) := do
  let n_components := packet.length
  let offsets ← build_offsets packet
  let result : CMatrix α := ⟨total_size packet, total_size packet, mem⟩
  forLoop 0 n_components (fun i result =>
    forLoop 0 n_components (fun j result =>
      write_block IP packet op offsets i j result) result) result

/-- The function `VectorInnerProduct::default_op`: a row of ones, one per node,
whatever `pos`, `i` and `j` are. -/
def default_op [One α] : op_t α ρ :=
  fun nodes _pos _i _j => ⟨1, nodes.cols, fun _ _ => 1⟩

/-! ### Specification side -/

/-- Two components that agree on everything but the values of their coefficients. -/
def same_up_to_coefficients (c d : HaWp E P S K) : Prop :=
  c.eps = d.eps ∧ c.parameters = d.parameters ∧ c.shape = d.shape ∧
    c.coefficients.length = d.coefficients.length

/-- The all-ones operator of the scalar engine: `default_op` with `(i, j)` bound. -/
def ones_op [One α] : CMatrix α → CMatrix ρ → CMatrix α :=
  fun nodes _pos => ⟨1, nodes.cols, fun _ _ => 1⟩

/-- Specification side: the cumulative offset of component `k`, the sum of the
sizes of components `0 .. k-1`. -/
def spec_offset (packet : List (HaWp E P S K)) (k : Nat) : Nat :=
  ((packet.take k).map size).sum

/-- Specification side: the block layout of the returned matrix. -/
def BlockLayout (IP : Engine E P S K α ρ) (packet : List (HaWp E P S K)) (op : op_t α ρ)
    (M : CMatrix α) : Prop :=
  M.rows = spec_offset packet packet.length ∧ M.cols = spec_offset packet packet.length ∧
  ∀ (i j : Fin packet.length) (r : Fin (size packet[i])) (c : Fin (size packet[j])),
    M.coeff (spec_offset packet i + r) (spec_offset packet j + c) =
      (IP packet[i] packet[j] (fun x q => op x q i j)).coeff r c

/-- Specification side: every off-diagonal component block is zero. -/
def BlockDiagonal [Zero α] (packet : List (HaWp E P S K)) (M : CMatrix α) : Prop :=
  ∀ (i j : Fin packet.length), i ≠ j →
    ∀ (r : Fin (size packet[i])) (c : Fin (size packet[j])),
      M.coeff (spec_offset packet i + r) (spec_offset packet j + c) = 0

/-- Whether the block written for the pair `(i, j)` contains the cell `(a, b)`. -/
def covers (packet : List (HaWp E P S K)) (offsets : List Nat) (i j a b : Nat) : Bool :=
  match block_region packet offsets i j with
  | some (oi, oj, si, sj) => in_block oi oj si sj a b
  | none => false

/-! ### Concrete inputs -/

/-- A component with the tag `e` and `n` coefficients, all equal to `k`. -/
def component (e n : Nat) (k : Int) : HaWp Nat Unit Unit Int := ⟨e, (), (), List.replicate n k⟩

/-- Three components with one coefficient each. -/
def packet3 : List (HaWp Nat Unit Unit Int) := [component 0 1 0, component 1 1 0, component 2 1 0]

/-- The three components of `packet3` with other coefficient values. -/
def packet3b : List (HaWp Nat Unit Unit Int) :=
  [component 0 1 5, component 1 1 7, component 2 1 9]

/-- Two equal components with one coefficient each. -/
def packet2 : List (HaWp Nat Unit Unit Int) := [component 0 1 0, component 0 1 0]

/-- A scalar engine of the right shape whose entries name the pair of components:
`10 * (tag bra + 1) + (tag ket + 1)`. -/
def tag_engine : Engine Nat Unit Unit Int Int Unit :=
  fun bra ket _ => ⟨size bra, size ket, fun _ _ => 10 * (bra.eps + 1) + (ket.eps + 1)⟩

/-- A scalar engine with a single quadrature node of weight one at which every
basis function is one: each entry is the operator value at the node. -/
def node_engine : Engine Nat Unit Unit Int Int Unit :=
  fun bra ket f => ⟨size bra, size ket,
    fun _ _ => (f ⟨1, 1, fun _ _ => 0⟩ ⟨1, 1, fun _ _ => ()⟩).coeff 0 0⟩

/-- Storage content that is zero everywhere. -/
def mem_zero : Nat → Nat → Int := fun _ _ => 0

/-- Storage content that holds the row index. -/
def mem_row : Nat → Nat → Int := fun a _ => a

/-- Complex conjugation on scalars that are real. -/
def conj_real : Int → Int := fun z => z

end VectorInnerProduct

namespace potentials.modules.localRemainder

variable {α β : Type} {N : Nat}

/-- The statement `C(i, i) -= d`. -/
def sub_diag [Sub α] (C : Matrix (Fin N) (Fin N) α) (i : Fin N) (d : α) :
    Matrix (Fin N) (Fin N) α :=
  Function.update C i (Function.update (C i) i (C i i - d))

namespace helper.DiagonalDifference

/-- Primary template (`N ≥ 2`), `Inhomogenous::apply` (lines 79-89): `C` is the
coefficient-wise cast of `V`, then `C(i, i) -= u(i)` for `i = 0 .. N-1`. -/
def Inhomogenous.apply [Sub α] (cast : β → α) (V : Matrix (Fin N) (Fin N) β) (u : Fin N → α) :
    Matrix (Fin N) (Fin N) α :=
  (List.finRange N).foldl (fun C i => sub_diag C i (u i)) (fun i j => cast (V i j))

/-- Primary template (`N ≥ 2`), `Homogenous::apply` (lines 90-100): `C` is the
coefficient-wise cast of `V`, then `C(i, i) -= u` for `i = 0 .. N-1`. -/
def Homogenous.apply [Sub α] (cast : β → α) (V : Matrix (Fin N) (Fin N) β) (u : α) :
    Matrix (Fin N) (Fin N) α :=
  (List.finRange N).foldl (fun C i => sub_diag C i u) (fun i j => cast (V i j))

end helper.DiagonalDifference

/-- The class `General<DiagDifference, EvalImpl, LocQuadraticImpl, N, D>`: the
diagonal difference, the evaluation of the potential and the leading level it
is composed of. -/
structure General (Arg U α β : Type) (N : Nat) where
  /-- The static function `DiagDifference::apply`. -/
  apply : Matrix (Fin N) (Fin N) β → U → Matrix (Fin N) (Fin N) α
  /-- The base `EvalImpl::evaluate_at`. -/
  evaluate_at : Arg → Matrix (Fin N) (Fin N) β
  /-- The leading level, `get_leading_level().evaluate_local_quadratic_at`. -/
  evaluate_local_quadratic_at : Arg → Arg → U

/-- The function `General::evaluate_local_remainder_at_implementation` (lines 62-68). -/
def General.evaluate_local_remainder_at_implementation {Arg U : Type}
    (self : General Arg U α β N) (arg q : Arg) : Matrix (Fin N) (Fin N) α :=
  let u := self.evaluate_local_quadratic_at arg q
  self.apply (self.evaluate_at arg) u

/-- The function `Abstract::evaluate_local_remainder_at` (lines 26-30): static
dispatch to the implementation of the subtype. -/
def Abstract.evaluate_local_remainder_at {Arg U : Type}
    (self : General Arg U α β N) (arg q : Arg) : Matrix (Fin N) (Fin N) α :=
  self.evaluate_local_remainder_at_implementation arg q

/-- The alias `localRemainder::Homogenous` (line 118) for `N ≥ 2`: `General` with
the homogeneous diagonal difference and a scalar leading level. -/
def Homogenous {Arg : Type} [Sub α] (cast : β → α) (evaluate_at : Arg → Matrix (Fin N) (Fin N) β)
    (leading : Arg → Arg → α) : General Arg α α β N :=
  ⟨helper.DiagonalDifference.Homogenous.apply cast, evaluate_at, leading⟩

/-! ### Concrete inputs -/

/-- The cast of an integer scalar to itself. -/
def cast_int : Int → Int := fun z => z

/-- A `2 × 2` potential evaluation with the entries `1, 2, 3, 4`. -/
def V2 : Matrix (Fin 2) (Fin 2) Int := fun i j => 2 * (i : Nat) + (j : Nat) + 1

/-- The leading levels `10, 20`. -/
def u2 : Fin 2 → Int := fun i => 10 * ((i : Nat) + 1)

/-- A `2 × 2` potential of one integer argument. -/
def pot2 : Int → Matrix (Fin 2) (Fin 2) Int := fun x i j => x * (2 * (i : Nat) + (j : Nat) + 1)

/-- A scalar leading level of one integer argument, expanded at `q`. -/
def lead2 : Int → Int → Int := fun x q => q * q + 2 * q * (x - q)

/-! ### Machine scalars -/

/-- Number of low bits of `n` that do not fit in a significand of 53 bits: the
least `k` with `n / 2 ^ k < 2 ^ 53`, found in at most `fuel` halvings. -/
def dropped_bits : Nat → Nat → Nat
  | 0, _ => 0
  | fuel + 1, n => if n < 2 ^ 53 then 0 else dropped_bits fuel (n / 2) + 1

/-- Rounding of an integer to 53 significant bits, to nearest and ties to even:
what binary64 arithmetic stores for the exact result `x`.  The fuel 1024 covers
every finite binary64 magnitude. -/
def round53 (x : Int) : Int :=
  let n := x.natAbs
  let k := dropped_bits 1024 n
  let q := n / 2 ^ k
  let r := n % 2 ^ k
  let q1 := if 2 * r > 2 ^ k ∨ (2 * r = 2 ^ k ∧ q % 2 = 1) then q + 1 else q
  x.sign * ((q1 * 2 ^ k : Nat) : Int)

/-- Modelled from the spec: the scalar types `real_t` and `complex_t` are declared
in `types.hpp`, which is not among the sources; the spec takes the matrix
entries to be machine floating-point numbers (its guarantees are "up to
floating-point rounding").  `Binary64` is the part of IEEE 754 binary64 whose
values are integers: a number is kept as its integer value, and an operation
gives the exact result rounded by `round53`.  The integers are closed under
these operations as long as nothing overflows. -/
structure Binary64 where
  /-- The integer value of the number. -/
  val : Int

/-- Machine subtraction `a - b`. -/
def Binary64.sub (a b : Binary64) : Binary64 := ⟨round53 (a.val - b.val)⟩

/-- Machine addition `a + b`. -/
def Binary64.add (a b : Binary64) : Binary64 := ⟨round53 (a.val + b.val)⟩

/-- Machine multiplication `a * b`. -/
def Binary64.mul (a b : Binary64) : Binary64 := ⟨round53 (a.val * b.val)⟩

/-- The operator `-` of the machine scalars, as the code's `-=` uses it. -/
def Binary64.has_sub : Sub Binary64 := ⟨Binary64.sub⟩

/-- Specification side: adding `u` times the `N × N` identity to `R` gives `V`,
entry by entry, with the addition and multiplication of the scalar type. -/
def recovers (add mul : α → α → α) (zero one : α) (R : Matrix (Fin N) (Fin N) α) (u : α)
    (V : Matrix (Fin N) (Fin N) α) : Prop :=
  ∀ i j, add (R i j) (mul u (if i = j then one else zero)) = V i j

/-- The `2 × 2` identity matrix as a potential evaluation. -/
def pot_id : Unit → Matrix (Fin 2) (Fin 2) Binary64 := fun _ i j => if i = j then ⟨1⟩ else ⟨0⟩

/-- The leading level with the constant value `1e16`. -/
def lead_big : Unit → Unit → Binary64 := fun _ _ => ⟨10000000000000000⟩

/-- The homogeneous local remainder of `pot_id` and `lead_big` over the machine
scalars. -/
def remainder64 : General Unit Binary64 Binary64 Binary64 2 :=
  @Homogenous Binary64 Binary64 2 Unit Binary64.has_sub (fun z => z) pot_id lead_big

end potentials.modules.localRemainder

/-! ## Loops -/

theorem foldlM_congr_mem {σ ι : Type} (l : List ι) (f g : σ → ι → Option σ)
    (h : ∀ i ∈ l, ∀ s, f s i = g s i) (s : σ) : l.foldlM f s = l.foldlM g s := by
  induction l generalizing s with
  | nil => rfl
  | cons x t ih =>
    simp only [List.foldlM_cons]
    rw [h x (List.mem_cons_self x t) s]
    cases g s x with
    | none => rfl
    | some s1 => exact ih (fun i hi => h i (List.mem_cons_of_mem x hi)) s1

theorem forLoop_congr {σ : Type} (lo hi : Nat) (body body2 : Nat → σ → Option σ)
    (h : ∀ i s, lo ≤ i → i < hi → body i s = body2 i s) (s : σ) :
    forLoop lo hi body s = forLoop lo hi body2 s := by
  unfold forLoop
  apply foldlM_congr_mem
  intro i hi s
  rw [List.mem_range'_1] at hi
  exact h i s hi.1 (by omega)

theorem foldlM_range'_inv {σ : Type} (Inv : Nat → σ → Prop) (body : Nat → σ → Option σ)
    (k : Nat) : ∀ (lo : Nat) (s : σ), Inv lo s →
    (∀ i s, lo ≤ i → i < lo + k → Inv i s → ∃ s1, body i s = some s1 ∧ Inv (i + 1) s1) →
    ∃ s1, (List.range' lo k).foldlM (fun s i => body i s) s = some s1 ∧ Inv (lo + k) s1 := by
  induction k with
  | zero => intro lo s h0 _; exact ⟨s, rfl, h0⟩
  | succ k ih =>
    intro lo s h0 hstep
    obtain ⟨s1, hb, h1⟩ := hstep lo s (le_refl lo) (by omega) h0
    obtain ⟨s2, hf, h2⟩ := ih (lo + 1) s1 h1
      (fun i s hlo hhi hi => hstep i s (by omega) (by omega) hi)
    refine ⟨s2, ?_, ?_⟩
    · rw [List.range'_succ, List.foldlM_cons, hb]
      exact hf
    · have : lo + (k + 1) = lo + 1 + k := by omega
      rw [this]; exact h2

theorem forLoop_inv {σ : Type} (Inv : Nat → σ → Prop) (lo hi : Nat)
    (body : Nat → σ → Option σ) (s : σ) (hle : lo ≤ hi) (h0 : Inv lo s)
    (hstep : ∀ i s, lo ≤ i → i < hi → Inv i s → ∃ s1, body i s = some s1 ∧ Inv (i + 1) s1) :
    ∃ s1, forLoop lo hi body s = some s1 ∧ Inv hi s1 := by
  have h := foldlM_range'_inv Inv body (hi - lo) lo s h0
    (fun i s h1 h2 h3 => hstep i s h1 (by omega) h3)
  have e : lo + (hi - lo) = hi := by omega
  rw [e] at h
  exact h

theorem foldlM_range'_rel {σ : Type} (R : Nat → σ → σ → Prop) (body : Nat → σ → Option σ)
    (k : Nat) : ∀ (lo : Nat) (s t : σ), R lo s t →
    (∀ i s t, lo ≤ i → i < lo + k → R i s t →
      ∃ s1 t1, body i s = some s1 ∧ body i t = some t1 ∧ R (i + 1) s1 t1) →
    ∃ s1 t1, (List.range' lo k).foldlM (fun s i => body i s) s = some s1 ∧
      (List.range' lo k).foldlM (fun s i => body i s) t = some t1 ∧ R (lo + k) s1 t1 := by
  induction k with
  | zero => intro lo s t h0 _; exact ⟨s, t, rfl, rfl, h0⟩
  | succ k ih =>
    intro lo s t h0 hstep
    obtain ⟨s1, t1, hs, ht, h1⟩ := hstep lo s t (le_refl lo) (by omega) h0
    obtain ⟨s2, t2, hfs, hft, h2⟩ := ih (lo + 1) s1 t1 h1
      (fun i s t hlo hhi hi => hstep i s t (by omega) (by omega) hi)
    refine ⟨s2, t2, ?_, ?_, ?_⟩
    · rw [List.range'_succ, List.foldlM_cons, hs]
      exact hfs
    · rw [List.range'_succ, List.foldlM_cons, ht]
      exact hft
    · have e : lo + (k + 1) = lo + 1 + k := by omega
      rw [e]; exact h2

theorem forLoop_rel {σ : Type} (R : Nat → σ → σ → Prop) (lo hi : Nat)
    (body : Nat → σ → Option σ) (s t : σ) (hle : lo ≤ hi) (h0 : R lo s t)
    (hstep : ∀ i s t, lo ≤ i → i < hi → R i s t →
      ∃ s1 t1, body i s = some s1 ∧ body i t = some t1 ∧ R (i + 1) s1 t1) :
    ∃ s1 t1, forLoop lo hi body s = some s1 ∧ forLoop lo hi body t = some t1 ∧ R hi s1 t1 := by
  have h := foldlM_range'_rel R body (hi - lo) lo s t h0
    (fun i s t h1 h2 h3 => hstep i s t h1 (by omega) h3)
  have e : lo + (hi - lo) = hi := by omega
  rw [e] at h
  exact h

/-! ## The offsets and the bounds -/

namespace VectorInnerProduct

variable {E P S K α ρ : Type}

theorem foldl_size_eq (l : List (HaWp E P S K)) (a : Nat) :
    l.foldl (fun total comp => total + size comp) a = a + (l.map size).sum := by
  induction l generalizing a with
  | nil => simp
  | cons c t ih => simp [List.foldl_cons, ih, Nat.add_assoc]

theorem total_size_eq_sum (packet : List (HaWp E P S K)) :
    total_size packet = (packet.map size).sum := by
  simp [total_size, foldl_size_eq]

theorem build_offsets_spec (packet : List (HaWp E P S K)) (h : packet ≠ []) :
    ∃ offs, build_offsets packet = some offs ∧ offs.length = packet.length ∧
      offs[0]? = some 0 ∧
      ∀ i, 1 ≤ i → i < packet.length → offs[i]? = (packet[i - 1]?).map size := by
  have hn : 0 < packet.length := List.length_pos.mpr h
  have hinv := forLoop_inv
    (fun k (offs : List Nat) => offs.length = packet.length ∧ offs[0]? = some 0 ∧
      ∀ i, 1 ≤ i → i < k → offs[i]? = (packet[i - 1]?).map size)
    1 packet.length
    (fun i offsets => do
      let prev ← packet[i - 1]?
      assign offsets i (size prev))
    ((List.replicate packet.length 0).set 0 0) (by omega)
    ⟨by simp, by simp [List.getElem?_set, hn], fun i h1 h2 => by omega⟩
    (by
      intro i offs hlo hhi ⟨hlen, h0, hprev⟩
      have hp : i - 1 < packet.length := by omega
      refine ⟨offs.set i (size packet[i - 1]), ?_, ?_, ?_, ?_⟩
      · simp [List.getElem?_eq_getElem hp, assign, hlen, hhi]
      · simp [hlen]
      · rw [List.getElem?_set_ne (by omega)]; exact h0
      · intro j hj1 hj2
        by_cases hji : j = i
        · subst hji
          simp [List.getElem?_eq_getElem hp, hlen, hhi]
        · rw [List.getElem?_set_ne (by omega)]
          exact hprev j hj1 (by omega))
  obtain ⟨offs, hrun, hlen, h0, hall⟩ := hinv
  refine ⟨offs, ?_, hlen, h0, hall⟩
  simp only [build_offsets, assign, List.length_replicate, hn, if_true]
  exact hrun

theorem getElem?_le_sum (l : List Nat) : ∀ (i a : Nat), l[i]? = some a → a ≤ l.sum := by
  induction l with
  | nil => intro i a h; simp at h
  | cons x t ih =>
    intro i a h
    cases i with
    | zero => simp at h; subst h; simp
    | succ i =>
      simp at h
      have := ih i a h
      simp; omega

theorem adjacent_le_sum (l : List Nat) :
    ∀ (i a b : Nat), l[i]? = some a → l[i + 1]? = some b → a + b ≤ l.sum := by
  induction l with
  | nil => intro i a b h; simp at h
  | cons x t ih =>
    intro i a b ha hb
    cases i with
    | zero =>
      simp at ha hb; subst ha
      have := getElem?_le_sum t 0 b hb
      simp; omega
    | succ i =>
      simp at ha hb
      have := ih i a b ha hb
      simp; omega

theorem offsets_bound (packet : List (HaWp E P S K)) (offs : List Nat)
    (h0 : offs[0]? = some 0)
    (hall : ∀ i, 1 ≤ i → i < packet.length → offs[i]? = (packet[i - 1]?).map size)
    (i : Nat) (hi : i < packet.length) :
    ∃ oi, offs[i]? = some oi ∧ oi + size packet[i] ≤ total_size packet := by
  rw [total_size_eq_sum]
  have hsz : (packet.map size)[i]? = some (size packet[i]) := by
    simp [List.getElem?_eq_getElem hi]
  cases i with
  | zero =>
    refine ⟨0, h0, ?_⟩
    have := getElem?_le_sum _ _ _ hsz
    omega
  | succ k =>
    have hk : k < packet.length := by omega
    refine ⟨size packet[k], ?_, ?_⟩
    · rw [hall (k + 1) (by omega) hi]
      simp [List.getElem?_eq_getElem hk]
    · have hszk : (packet.map size)[k]? = some (size packet[k]) := by
        simp [List.getElem?_eq_getElem hk]
      exact adjacent_le_sum _ _ _ _ hszk hsz

theorem block_region_bound (packet : List (HaWp E P S K)) (offs : List Nat)
    (h0 : offs[0]? = some 0)
    (hall : ∀ i, 1 ≤ i → i < packet.length → offs[i]? = (packet[i - 1]?).map size)
    (i j : Nat) (hi : i < packet.length) (hj : j < packet.length) :
    ∃ oi oj, block_region packet offs i j = some (oi, oj, size packet[i], size packet[j]) ∧
      oi + size packet[i] ≤ total_size packet ∧ oj + size packet[j] ≤ total_size packet := by
  obtain ⟨oi, hoi, hbi⟩ := offsets_bound packet offs h0 hall i hi
  obtain ⟨oj, hoj, hbj⟩ := offsets_bound packet offs h0 hall j hj
  refine ⟨oi, oj, ?_, hbi, hbj⟩
  simp [block_region, hoi, hoj, List.getElem?_eq_getElem hi, List.getElem?_eq_getElem hj]

theorem block_loops_ok (IP : Engine E P S K α ρ) (packet : List (HaWp E P S K)) (op : op_t α ρ)
    (offs : List Nat) (h0 : offs[0]? = some 0)
    (hall : ∀ i, 1 ≤ i → i < packet.length → offs[i]? = (packet[i - 1]?).map size)
    (result : CMatrix α) (hr : result.rows = total_size packet)
    (hc : result.cols = total_size packet) :
    ∃ M, forLoop 0 packet.length (fun i result =>
        forLoop 0 packet.length (fun j result =>
          write_block IP packet op offs i j result) result) result = some M ∧
      M.rows = total_size packet ∧ M.cols = total_size packet := by
  apply forLoop_inv (fun _ (M : CMatrix α) =>
    M.rows = total_size packet ∧ M.cols = total_size packet) 0 packet.length _ result
    (Nat.zero_le _) ⟨hr, hc⟩
  intro i Mi _ hi hMi
  apply forLoop_inv (fun _ (M : CMatrix α) =>
    M.rows = total_size packet ∧ M.cols = total_size packet) 0 packet.length _ Mi
    (Nat.zero_le _) hMi
  intro j Mj _ hj ⟨hMr, hMc⟩
  obtain ⟨oi, oj, hreg, hbi, hbj⟩ := block_region_bound packet offs h0 hall i j hi hj
  simp [write_block, hreg, List.getElem?_eq_getElem hi, List.getElem?_eq_getElem hj,
    CMatrix.assignBlock, hMr, hMc, hbi, hbj]

theorem build_matrix_ok (IP : Engine E P S K α ρ) (mem : Nat → Nat → α)
    (packet : List (HaWp E P S K)) (op : op_t α ρ) (h : packet ≠ []) :
    ∃ M, build_matrix IP mem packet op = some M ∧
      M.rows = total_size packet ∧ M.cols = total_size packet := by
  obtain ⟨offs, hoffs, _, h0, hall⟩ := build_offsets_spec packet h
  obtain ⟨M, hM, hr, hc⟩ := block_loops_ok IP packet op offs h0 hall
    ⟨total_size packet, total_size packet, mem⟩ rfl rfl
  refine ⟨M, ?_, hr, hc⟩
  simp only [build_matrix, hoffs]
  exact hM

/-- C10: for a packet with at least one component, every access of `build_matrix`
is in bounds.  The checked embedding returns a matrix, so no index into
`offsets`, no `packet.component(..)` and no block write was out of range;
and for every pair `(i, j)` the written block satisfies
`offsets[i] + size_i ≤ total_size` and `offsets[j] + size_j ≤ total_size`. -/
theorem build_matrix_in_bounds (IP : Engine E P S K α ρ) (mem : Nat → Nat → α)
    (packet : List (HaWp E P S K)) (op : op_t α ρ) (h : 1 ≤ packet.length) :
    (∃ M, build_matrix IP mem packet op = some M) ∧
    ∃ offs, build_offsets packet = some offs ∧ offs.length = packet.length ∧
      ∀ i j, i < packet.length → j < packet.length →
        ∃ oi oj si sj, block_region packet offs i j = some (oi, oj, si, sj) ∧
          oi + si ≤ total_size packet ∧ oj + sj ≤ total_size packet := by
  have hne : packet ≠ [] := by
    intro e; subst e; simp at h
  obtain ⟨M, hM, _, _⟩ := build_matrix_ok IP mem packet op hne
  obtain ⟨offs, hoffs, hlen, h0, hall⟩ := build_offsets_spec packet hne
  refine ⟨⟨M, hM⟩, offs, hoffs, hlen, ?_⟩
  intro i j hi hj
  obtain ⟨oi, oj, hreg, hbi, hbj⟩ := block_region_bound packet offs h0 hall i j hi hj
  exact ⟨oi, oj, _, _, hreg, hbi, hbj⟩

theorem build_matrix_two (IP : Engine E P S K α ρ) (mem : Nat → Nat → α)
    (a b : HaWp E P S K) (op : op_t α ρ) :
    ∃ M, build_matrix IP mem [a, b] op = some M ∧
      M.rows = size a + size b ∧ M.cols = size a + size b ∧
      (∀ r c, r < size a → c < size a →
        M.coeff r c = (IP a a (fun x q => op x q 0 0)).coeff r c) ∧
      (∀ r c, r < size a → c < size b →
        M.coeff r (size a + c) = (IP a b (fun x q => op x q 0 1)).coeff r c) ∧
      (∀ r c, r < size b → c < size a →
        M.coeff (size a + r) c = (IP b a (fun x q => op x q 1 0)).coeff r c) ∧
      (∀ r c, r < size b → c < size b →
        M.coeff (size a + r) (size a + c) = (IP b b (fun x q => op x q 1 1)).coeff r c) := by
  simp [build_matrix, build_offsets, forLoop, assign, write_block, block_region,
    CMatrix.assignBlock, in_block, total_size, List.range']
  refine ⟨fun r c hr hc => ?_, fun r c hr hc => ?_, fun r c hr hc => ?_, fun r c hr hc => ?_⟩
  · split_ifs <;> first | rfl | (exfalso; omega)
  · split_ifs <;> first | rfl | (exfalso; omega)
  · split_ifs <;> first | rfl | (exfalso; omega)
  · intro h; exfalso; have := h hr; omega

theorem build_matrix_one (IP : Engine E P S K α ρ) (mem : Nat → Nat → α)
    (a : HaWp E P S K) (op : op_t α ρ) :
    ∃ M, build_matrix IP mem [a] op = some M ∧ M.rows = size a ∧ M.cols = size a ∧
      ∀ r c, r < size a → c < size a →
        M.coeff r c = (IP a a (fun x q => op x q 0 0)).coeff r c := by
  simp [build_matrix, build_offsets, forLoop, assign, write_block, block_region,
    CMatrix.assignBlock, in_block, total_size, List.range']
  intro r c hr hc h
  exfalso; have := h hr; omega

theorem build_matrix_empty (IP : Engine E P S K α ρ) (mem : Nat → Nat → α) (op : op_t α ρ) :
    build_matrix IP mem [] op = none := by
  simp [build_matrix, build_offsets, assign]

theorem build_matrix_two_hermitian [One α] (IP : Engine E P S K α ρ) (mem : Nat → Nat → α)
    (conj : α → α) (a b : HaWp E P S K)
    (hsym : ∀ bra ket r c, (IP bra ket ones_op).coeff r c = conj ((IP ket bra ones_op).coeff c r)) :
    ∃ M, build_matrix IP mem [a, b] default_op = some M ∧
      ∀ x y, x < M.rows → y < M.cols → M.coeff x y = conj (M.coeff y x) := by
  simp [build_matrix, build_offsets, forLoop, assign, write_block, block_region,
    CMatrix.assignBlock, in_block, total_size, List.range']
  intro x y hx hy
  by_cases h1 : x < size a <;> by_cases h2 : y < size a
  · rw [if_neg (by omega), if_neg (by omega), if_neg (by omega), if_pos ⟨h1, h2⟩,
      if_neg (by omega), if_neg (by omega), if_neg (by omega), if_pos ⟨h2, h1⟩]
    exact hsym a a x y
  · rw [if_neg (by omega), if_neg (by omega), if_pos ⟨h1, by omega, by omega⟩,
      if_neg (by omega), if_pos ⟨by omega, by omega, h1⟩]
    exact hsym a b x (y - size a)
  · rw [if_neg (by omega), if_pos ⟨by omega, by omega, h2⟩,
      if_neg (by omega), if_neg (by omega), if_pos ⟨h2, by omega, by omega⟩]
    exact hsym b a (x - size a) y
  · rw [if_pos ⟨by omega, by omega, by omega, by omega⟩,
      if_pos ⟨by omega, by omega, by omega, by omega⟩]
    exact hsym b b (x - size a) (y - size a)

theorem map_size_congr (p p2 : List (HaWp E P S K))
    (hp : List.Forall₂ same_up_to_coefficients p p2) : p.map size = p2.map size := by
  induction hp with
  | nil => rfl
  | cons h _ ih => simp [size, h.2.2.2, ih]

theorem build_matrix_congr (IP : Engine E P S K α ρ) (mem : Nat → Nat → α)
    (p p2 : List (HaWp E P S K)) (op : op_t α ρ)
    (hIP : ∀ a a2 b b2 f, same_up_to_coefficients a a2 → same_up_to_coefficients b b2 →
      IP a b f = IP a2 b2 f)
    (hp : List.Forall₂ same_up_to_coefficients p p2) :
    build_matrix IP mem p op = build_matrix IP mem p2 op := by
  have hlen : p.length = p2.length := hp.length_eq
  have hget : ∀ i (h1 : i < p.length) (h2 : i < p2.length),
      same_up_to_coefficients p[i] p2[i] := fun i h1 h2 => hp.get h1 h2
  have hoffs : build_offsets p = build_offsets p2 := by
    simp only [build_offsets, hlen]
    cases assign (List.replicate p2.length 0) 0 0 with
    | none => rfl
    | some offs =>
      apply forLoop_congr
      intro i s h1 h2
      have hp1 : i - 1 < p.length := by omega
      have hp2 : i - 1 < p2.length := by omega
      simp [List.getElem?_eq_getElem hp1, List.getElem?_eq_getElem hp2, size,
        (hget (i - 1) hp1 hp2).2.2.2]
  have htot : total_size p = total_size p2 := by
    rw [total_size_eq_sum, total_size_eq_sum, map_size_congr p p2 hp]
  simp only [build_matrix, hoffs, htot, hlen]
  cases build_offsets p2 with
  | none => rfl
  | some offs =>
    apply forLoop_congr
    intro i Mi _ hi
    apply forLoop_congr
    intro j Mj _ hj
    have hi1 : i < p.length := by omega
    have hj1 : j < p.length := by omega
    simp [write_block, block_region, List.getElem?_eq_getElem hi1, List.getElem?_eq_getElem hj1,
      List.getElem?_eq_getElem hi, List.getElem?_eq_getElem hj, size,
      (hget i hi1 hi).2.2.2, (hget j hj1 hj).2.2.2,
      hIP p[i] p2[i] p[j] p2[j] _ (hget i hi1 hi) (hget j hj1 hj)]

/-- C2, at three components with one coefficient each: the code computes the
offsets `[0, 1, 1]`, every entry after the first being the size of the
component just before, whereas the cumulative sizes of the prior components
are `[0, 1, 2]`. -/
theorem build_offsets_three_not_cumulative :
    packet3.map size = [1, 1, 1] ∧
    build_offsets packet3 = some [0, 1, 1] ∧
    (List.range 3).map (spec_offset packet3) = [0, 1, 2] := by
  decide

/-- C1, at three components with one coefficient each and a scalar engine of the
right shape: the returned matrix does not have the block layout.  The cell
`(1, 1)`, which is the block of the pair `(1, 1)`, holds the engine value of
the pair `(2, 2)` (33, not 22), and the cell `(2, 2)` is never written. -/
theorem build_matrix_three_layout_broken :
    ∃ M, build_matrix tag_engine mem_zero packet3 default_op = some M ∧
      M.coeff 1 1 = 33 ∧
      (tag_engine (component 1 1 0) (component 1 1 0) (fun x q => default_op x q 1 1)).coeff 0 0
        = 22 ∧
      M.coeff 2 2 = mem_zero 2 2 ∧
      ¬ BlockLayout tag_engine packet3 default_op M := by
  obtain ⟨M, hM, -, -⟩ := build_matrix_ok tag_engine mem_zero packet3 default_op (List.cons_ne_nil _ _)
  have h11 : (build_matrix tag_engine mem_zero packet3 default_op).map
      (fun M => M.coeff 1 1) = some 33 := by decide
  have h22 : (build_matrix tag_engine mem_zero packet3 default_op).map
      (fun M => M.coeff 2 2) = some (mem_zero 2 2) := by decide
  rw [hM] at h11 h22
  simp only [Option.map_some', Option.some.injEq] at h11 h22
  refine ⟨M, hM, h11, by decide, h22, ?_⟩
  intro hL
  have h := hL.2.2 ⟨1, by decide⟩ ⟨1, by decide⟩ ⟨0, by decide⟩ ⟨0, by decide⟩
  have e : spec_offset packet3 1 = 1 := by decide
  simp only [e] at h
  rw [show (1 : Nat) + (0 : Nat) = 1 from rfl] at h
  rw [h11] at h
  revert h
  decide

/-- C3, at three components with one coefficient each: the blocks written for
the distinct pairs `(1, 1)`, `(1, 2)`, `(2, 1)` and `(2, 2)` all contain the cell
`(1, 1)`, and the cell `(2, 2)` of the `3 × 3` matrix lies in the block of no
pair. -/
theorem block_regions_three_overlap :
    packet3.map size = [1, 1, 1] ∧ total_size packet3 = 3 ∧
    build_offsets packet3 = some [0, 1, 1] ∧
    covers packet3 [0, 1, 1] 1 1 1 1 = true ∧ covers packet3 [0, 1, 1] 2 2 1 1 = true ∧
    covers packet3 [0, 1, 1] 1 2 1 1 = true ∧ covers packet3 [0, 1, 1] 2 1 1 1 = true ∧
    (∀ i j : Fin 3, covers packet3 [0, 1, 1] i j 2 2 = false) := by
  decide

/-- C4: for the packet with the two components `w, w`, `build_matrix` with the
default operator returns a `2s × 2s` matrix (`s` the size of `w`) whose four
`s × s` blocks all equal `S`, the matrix of the scalar engine for `(w, w)` with
the all-ones operator. -/
theorem build_matrix_identical_components [One α] (IP : Engine E P S K α ρ)
    (mem : Nat → Nat → α) (w : HaWp E P S K) :
    ∃ M, build_matrix IP mem [w, w] default_op = some M ∧
      M.rows = 2 * size w ∧ M.cols = 2 * size w ∧
      ∀ (r c : Fin (size w)),
        M.coeff r c = (IP w w ones_op).coeff r c ∧
        M.coeff r (size w + c) = (IP w w ones_op).coeff r c ∧
        M.coeff (size w + r) c = (IP w w ones_op).coeff r c ∧
        M.coeff (size w + r) (size w + c) = (IP w w ones_op).coeff r c := by
  obtain ⟨M, hM, hr, hc, h00, h01, h10, h11⟩ := build_matrix_two IP mem w w default_op
  refine ⟨M, hM, by omega, by omega, fun r c => ⟨?_, ?_, ?_, ?_⟩⟩
  · exact h00 r c r.2 c.2
  · exact h01 r c r.2 c.2
  · exact h10 r c r.2 c.2
  · exact h11 r c r.2 c.2

/-- C5, at three components with one coefficient each, the default operator and
a conjugate-symmetric scalar engine: the cells `(0, 2)` and `(2, 0)` of the
returned `3 × 3` matrix are never written and keep the content of the
allocated storage, so `M[0, 2] = conj M[2, 0]` fails. -/
theorem build_matrix_three_unwritten_cells :
    (∀ bra ket r c, (node_engine bra ket ones_op).coeff r c =
        conj_real ((node_engine ket bra ones_op).coeff c r)) ∧
    ∃ M, build_matrix node_engine mem_row packet3 default_op = some M ∧
      M.rows = 3 ∧ M.cols = 3 ∧
      M.coeff 0 2 = mem_row 0 2 ∧ M.coeff 2 0 = mem_row 2 0 ∧
      M.coeff 0 2 ≠ conj_real (M.coeff 2 0) := by
  refine ⟨fun _ _ _ _ => rfl, ?_⟩
  obtain ⟨M, hM, hr, hc⟩ := build_matrix_ok node_engine mem_row packet3 default_op
    (List.cons_ne_nil _ _)
  have h02 : (build_matrix node_engine mem_row packet3 default_op).map
      (fun M => M.coeff 0 2) = some (mem_row 0 2) := by decide
  have h20 : (build_matrix node_engine mem_row packet3 default_op).map
      (fun M => M.coeff 2 0) = some (mem_row 2 0) := by decide
  rw [hM] at h02 h20
  simp only [Option.map_some', Option.some.injEq] at h02 h20
  refine ⟨M, hM, ?_, ?_, h02, h20, ?_⟩
  · rw [hr]; decide
  · rw [hc]; decide
  · rw [h02, h20]; decide

/-- C6 fails: for two equal components with one coefficient each and the default
operator, the off-diagonal cell `(0, 1)` holds the overlap 1 computed by the
scalar engine, so the returned matrix is not block diagonal. -/
theorem build_matrix_default_not_block_diagonal :
    ∃ M, build_matrix node_engine mem_zero packet2 default_op = some M ∧
      M.coeff 0 1 = 1 ∧ ¬ BlockDiagonal packet2 M := by
  obtain ⟨M, hM, -, -⟩ := build_matrix_ok node_engine mem_zero packet2 default_op
    (List.cons_ne_nil _ _)
  have h01 : (build_matrix node_engine mem_zero packet2 default_op).map
      (fun M => M.coeff 0 1) = some 1 := by decide
  rw [hM] at h01
  simp only [Option.map_some', Option.some.injEq] at h01
  refine ⟨M, hM, h01, ?_⟩
  intro hD
  have h := hD ⟨0, by decide⟩ ⟨1, by decide⟩ (by decide) ⟨0, by decide⟩ ⟨0, by decide⟩
  have e0 : spec_offset packet2 0 = 0 := by decide
  have e1 : spec_offset packet2 1 = 1 := by decide
  simp only [e0, e1] at h
  rw [show (0 : Nat) + (0 : Nat) = 0 from rfl, show (1 : Nat) + (0 : Nat) = 1 from rfl, h01] at h
  revert h
  decide

/-- C6 as amended: for a packet with two components `a, b` and the default
operator, the off-diagonal blocks of the returned matrix are the matrices of
the scalar engine for `(a, b)` and `(b, a)` with the all-ones operator. -/
theorem build_matrix_default_off_diagonal [One α] (IP : Engine E P S K α ρ)
    (mem : Nat → Nat → α) (a b : HaWp E P S K) :
    ∃ M, build_matrix IP mem [a, b] default_op = some M ∧
      (∀ (r : Fin (size a)) (c : Fin (size b)),
        M.coeff r (size a + c) = (IP a b ones_op).coeff r c) ∧
      (∀ (r : Fin (size b)) (c : Fin (size a)),
        M.coeff (size a + r) c = (IP b a ones_op).coeff r c) := by
  obtain ⟨M, hM, -, -, -, h01, h10, -⟩ := build_matrix_two IP mem a b default_op
  exact ⟨M, hM, fun r c => h01 r c r.2 c.2, fun r c => h10 r c r.2 c.2⟩

theorem write_block_some (IP : Engine E P S K α ρ) (packet : List (HaWp E P S K)) (op : op_t α ρ)
    (offs : List Nat) (h0 : offs[0]? = some 0)
    (hall : ∀ i, 1 ≤ i → i < packet.length → offs[i]? = (packet[i - 1]?).map size)
    (i j : Nat) (hi : i < packet.length) (hj : j < packet.length)
    (M : CMatrix α) (hr : M.rows = total_size packet) (hc : M.cols = total_size packet) :
    ∃ M1, write_block IP packet op offs i j M = some M1 ∧
      M1.rows = total_size packet ∧ M1.cols = total_size packet ∧
      ∀ a b, M1.coeff a b =
        if covers packet offs i j a b then
          (IP packet[i] packet[j] (fun x q => op x q i j)).coeff
            (a - (offs[i]?).getD 0) (b - (offs[j]?).getD 0)
        else M.coeff a b := by
  obtain ⟨oi, hoi, hbi⟩ := offsets_bound packet offs h0 hall i hi
  obtain ⟨oj, hoj, hbj⟩ := offsets_bound packet offs h0 hall j hj
  simp [write_block, covers, block_region, hoi, hoj, List.getElem?_eq_getElem hi,
    List.getElem?_eq_getElem hj, CMatrix.assignBlock, hr, hc, hbi, hbj]

theorem block_loops_storage (IP : Engine E P S K α ρ) (packet : List (HaWp E P S K))
    (op : op_t α ρ) (offs : List Nat) (h0 : offs[0]? = some 0)
    (hall : ∀ i, 1 ≤ i → i < packet.length → offs[i]? = (packet[i - 1]?).map size)
    (mem mem2 : Nat → Nat → α) :
    ∃ M M2,
      forLoop 0 packet.length (fun i result =>
        forLoop 0 packet.length (fun j result =>
          write_block IP packet op offs i j result) result)
        ⟨total_size packet, total_size packet, mem⟩ = some M ∧
      forLoop 0 packet.length (fun i result =>
        forLoop 0 packet.length (fun j result =>
          write_block IP packet op offs i j result) result)
        ⟨total_size packet, total_size packet, mem2⟩ = some M2 ∧
      M.rows = total_size packet ∧ M.cols = total_size packet ∧
      M2.rows = total_size packet ∧ M2.cols = total_size packet ∧
      ∀ a b, M.coeff a b = M2.coeff a b ∨
        ∀ i j, i < packet.length → j < packet.length → covers packet offs i j a b = false := by
  have hloop := forLoop_rel
    (fun i (M M2 : CMatrix α) =>
      (M.rows = total_size packet ∧ M.cols = total_size packet) ∧
      (M2.rows = total_size packet ∧ M2.cols = total_size packet) ∧
      ∀ a b, M.coeff a b = M2.coeff a b ∨
        ∀ i1 j1, i1 < i → j1 < packet.length → covers packet offs i1 j1 a b = false)
    0 packet.length
    (fun i result => forLoop 0 packet.length (fun j result =>
      write_block IP packet op offs i j result) result)
    ⟨total_size packet, total_size packet, mem⟩ ⟨total_size packet, total_size packet, mem2⟩
    (Nat.zero_le _)
    ⟨⟨rfl, rfl⟩, ⟨rfl, rfl⟩, fun a b => Or.inr (fun i1 j1 h => absurd h (Nat.not_lt_zero _))⟩
    (by
      intro i Mi Mi2 _ hi ⟨hd, hd2, hcell⟩
      have hin := forLoop_rel
        (fun j (M M2 : CMatrix α) =>
          (M.rows = total_size packet ∧ M.cols = total_size packet) ∧
          (M2.rows = total_size packet ∧ M2.cols = total_size packet) ∧
          ∀ a b, M.coeff a b = M2.coeff a b ∨
            ((∀ i1 j1, i1 < i → j1 < packet.length → covers packet offs i1 j1 a b = false) ∧
              ∀ j1, j1 < j → covers packet offs i j1 a b = false))
        0 packet.length
        (fun j result => write_block IP packet op offs i j result) Mi Mi2 (Nat.zero_le _)
        ⟨hd, hd2, fun a b => (hcell a b).imp id
          (fun h => ⟨h, fun j1 hj1 => absurd hj1 (Nat.not_lt_zero _)⟩)⟩
        (by
          intro j Mj Mj2 _ hj ⟨hj1, hj2, hjcell⟩
          obtain ⟨N1, hw1, hr1, hc1, hv1⟩ :=
            write_block_some IP packet op offs h0 hall i j hi hj Mj hj1.1 hj1.2
          obtain ⟨N2, hw2, hr2, hc2, hv2⟩ :=
            write_block_some IP packet op offs h0 hall i j hi hj Mj2 hj2.1 hj2.2
          refine ⟨N1, N2, hw1, hw2, ⟨hr1, hc1⟩, ⟨hr2, hc2⟩, ?_⟩
          intro a b
          rw [hv1 a b, hv2 a b]
          by_cases hcov : covers packet offs i j a b = true
          · left; simp [hcov]
          · have hcf : covers packet offs i j a b = false := by simpa using hcov
            rcases hjcell a b with heq | ⟨hprev, hrow⟩
            · left; simp [hcf, heq]
            · right
              refine ⟨hprev, fun j1 hj1 => ?_⟩
              by_cases e : j1 = j
              · subst e; exact hcf
              · exact hrow j1 (by omega))
      obtain ⟨N1, N2, hf1, hf2, hn1, hn2, hncell⟩ := hin
      refine ⟨N1, N2, hf1, hf2, hn1, hn2, ?_⟩
      intro a b
      rcases hncell a b with heq | ⟨hprev, hrow⟩
      · exact Or.inl heq
      · right
        intro i1 j1 hi1 hj1
        by_cases e : i1 = i
        · subst e; exact hrow j1 hj1
        · exact hprev i1 j1 (by omega) hj1)
  obtain ⟨M, M2, h1, h2, hd, hd2, hcell⟩ := hloop
  exact ⟨M, M2, h1, h2, hd.1, hd.2, hd2.1, hd2.2, hcell⟩

/-- Two packets that agree up to coefficient values give matrices of the same
size in which every cell that some block write reaches has the same value,
whatever storage each call allocated. -/
theorem build_matrix_written_cells (IP : Engine E P S K α ρ) (mem mem2 : Nat → Nat → α)
    (p p2 : List (HaWp E P S K)) (op : op_t α ρ)
    (hIP : ∀ a a2 b b2 f, same_up_to_coefficients a a2 → same_up_to_coefficients b b2 →
      IP a b f = IP a2 b2 f)
    (hp : List.Forall₂ same_up_to_coefficients p p2) (hne : p ≠ []) :
    ∃ offs M M2, build_offsets p = some offs ∧
      build_matrix IP mem p op = some M ∧ build_matrix IP mem2 p2 op = some M2 ∧
      M.rows = M2.rows ∧ M.cols = M2.cols ∧
      ∀ a b, M.coeff a b = M2.coeff a b ∨
        ∀ i j, i < p.length → j < p.length → covers p offs i j a b = false := by
  obtain ⟨offs, hoffs, _, h0, hall⟩ := build_offsets_spec p hne
  obtain ⟨M, M2, h1, h2, hr, hc, hr2, hc2, hcell⟩ :=
    block_loops_storage IP p op offs h0 hall mem mem2
  refine ⟨offs, M, M2, hoffs, ?_, ?_, by rw [hr, hr2], by rw [hc, hc2], hcell⟩
  · simp only [build_matrix, hoffs]
    exact h1
  · rw [← build_matrix_congr IP mem2 p p2 op hIP hp]
    simp only [build_matrix, hoffs]
    exact h2

/-- With at most two components, two packets that agree up to coefficient values
give matrices of the same size that agree on every cell, whatever storage
each call allocated. -/
theorem build_matrix_same_of_length_le_two (IP : Engine E P S K α ρ) (mem mem2 : Nat → Nat → α)
    (p p2 : List (HaWp E P S K)) (op : op_t α ρ)
    (hIP : ∀ a a2 b b2 f, same_up_to_coefficients a a2 → same_up_to_coefficients b b2 →
      IP a b f = IP a2 b2 f)
    (hp : List.Forall₂ same_up_to_coefficients p p2) (hne : p ≠ []) (hlen : p.length ≤ 2) :
    ∃ M M2, build_matrix IP mem p op = some M ∧ build_matrix IP mem2 p2 op = some M2 ∧
      M.rows = M2.rows ∧ M.cols = M2.cols ∧
      ∀ x y, x < M.rows → y < M.cols → M.coeff x y = M2.coeff x y := by
  cases hp with
  | nil => exact absurd rfl hne
  | @cons a a2 t t2 ha ht =>
    cases ht with
    | nil =>
      obtain ⟨M, hM, hr, hc, hv⟩ := build_matrix_one IP mem a op
      obtain ⟨M2, hM2, hr2, hc2, hv2⟩ := build_matrix_one IP mem2 a2 op
      have hs : size a = size a2 := ha.2.2.2
      refine ⟨M, M2, hM, hM2, by omega, by omega, ?_⟩
      intro x y hx hy
      rw [hv x y (by omega) (by omega), hv2 x y (by omega) (by omega), hIP a a2 a a2 _ ha ha]
    | @cons b b2 u u2 hb hu =>
      cases hu with
      | cons _ _ => simp at hlen
      | nil =>
        obtain ⟨M, hM, hr, hc, h00, h01, h10, h11⟩ := build_matrix_two IP mem a b op
        obtain ⟨M2, hM2, hr2, hc2, k00, k01, k10, k11⟩ := build_matrix_two IP mem2 a2 b2 op
        have hsa : size a = size a2 := ha.2.2.2
        have hsb : size b = size b2 := hb.2.2.2
        refine ⟨M, M2, hM, hM2, by omega, by omega, ?_⟩
        intro x y hx hy
        by_cases h1 : x < size a <;> by_cases h2 : y < size a
        · rw [h00 x y h1 h2, k00 x y (by omega) (by omega), hIP a a2 a a2 _ ha ha]
        · obtain ⟨c, rfl⟩ : ∃ c, y = size a + c := ⟨y - size a, by omega⟩
          rw [h01 x c h1 (by omega), hsa, k01 x c (by omega) (by omega), hIP a a2 b b2 _ ha hb]
        · obtain ⟨r, rfl⟩ : ∃ r, x = size a + r := ⟨x - size a, by omega⟩
          rw [h10 r y (by omega) h2, hsa, k10 r y (by omega) (by omega), hIP b b2 a a2 _ hb ha]
        · obtain ⟨r, rfl⟩ : ∃ r, x = size a + r := ⟨x - size a, by omega⟩
          obtain ⟨c, rfl⟩ : ∃ c, y = size a + c := ⟨y - size a, by omega⟩
          rw [h11 r c (by omega) (by omega), hsa, k11 r c (by omega) (by omega),
            hIP b b2 b b2 _ hb hb]

/-- C7, at two packets of three components with one coefficient each that agree
in everything but their coefficient values, the same operator and a scalar
engine that does not read coefficients: the two returned `3 × 3` matrices
agree on the cells that are written, but the cell `(2, 0)` is never written and
keeps the content of the storage each call allocated (0 in one call, 2 in the
other), so the two calls do not return the same matrix. -/
theorem build_matrix_three_storage_dependent :
    (∀ a a2 b b2 f, same_up_to_coefficients a a2 → same_up_to_coefficients b b2 →
        tag_engine a b f = tag_engine a2 b2 f) ∧
    List.Forall₂ same_up_to_coefficients packet3 packet3b ∧
    ∃ M M2, build_matrix tag_engine mem_zero packet3 default_op = some M ∧
      build_matrix tag_engine mem_row packet3b default_op = some M2 ∧
      M.rows = 3 ∧ M.cols = 3 ∧ M2.rows = 3 ∧ M2.cols = 3 ∧
      [M.coeff 0 0, M.coeff 0 1, M.coeff 1 0, M.coeff 1 1] =
        [M2.coeff 0 0, M2.coeff 0 1, M2.coeff 1 0, M2.coeff 1 1] ∧
      M.coeff 2 0 = 0 ∧ M2.coeff 2 0 = 2 ∧ M.coeff 2 0 ≠ M2.coeff 2 0 := by
  refine ⟨?_, ?_, ?_⟩
  · intro a a2 b b2 f ha hb
    simp [tag_engine, size, ha.1, hb.1, ha.2.2.2, hb.2.2.2]
  · exact List.Forall₂.cons ⟨rfl, rfl, rfl, rfl⟩ (List.Forall₂.cons ⟨rfl, rfl, rfl, rfl⟩
      (List.Forall₂.cons ⟨rfl, rfl, rfl, rfl⟩ List.Forall₂.nil))
  · obtain ⟨M, hM, hr, hc⟩ := build_matrix_ok tag_engine mem_zero packet3 default_op
      (List.cons_ne_nil _ _)
    obtain ⟨M2, hM2, hr2, hc2⟩ := build_matrix_ok tag_engine mem_row packet3b default_op
      (List.cons_ne_nil _ _)
    have hA : (build_matrix tag_engine mem_zero packet3 default_op).map
        (fun M => [M.coeff 0 0, M.coeff 0 1, M.coeff 1 0, M.coeff 1 1, M.coeff 2 0]) =
        some [11, 13, 31, 33, 0] := by decide
    have hB : (build_matrix tag_engine mem_row packet3b default_op).map
        (fun M => [M.coeff 0 0, M.coeff 0 1, M.coeff 1 0, M.coeff 1 1, M.coeff 2 0]) =
        some [11, 13, 31, 33, 2] := by decide
    rw [hM] at hA
    rw [hM2] at hB
    simp only [Option.map_some', Option.some.injEq, List.cons.injEq, and_true] at hA hB
    obtain ⟨a00, a01, a10, a11, a20⟩ := hA
    obtain ⟨b00, b01, b10, b11, b20⟩ := hB
    refine ⟨M, M2, hM, hM2, ?_, ?_, ?_, ?_, ?_, a20, b20, ?_⟩
    · rw [hr]; decide
    · rw [hc]; decide
    · rw [hr2]; decide
    · rw [hc2]; decide
    · rw [a00, a01, a10, a11, b00, b01, b10, b11]
    · rw [a20, b20]; decide

/-- Witness of C10 at three components with one coefficient each. -/
theorem build_matrix_in_bounds_witness :
    1 ≤ packet3.length ∧
    ((∃ M, build_matrix tag_engine mem_zero packet3 default_op = some M) ∧
    ∃ offs, build_offsets packet3 = some offs ∧ offs.length = packet3.length ∧
      ∀ i j, i < packet3.length → j < packet3.length →
        ∃ oi oj si sj, block_region packet3 offs i j = some (oi, oj, si, sj) ∧
          oi + si ≤ total_size packet3 ∧ oj + sj ≤ total_size packet3) :=
  ⟨by decide, build_matrix_in_bounds tag_engine mem_zero packet3 default_op (by decide)⟩

end VectorInnerProduct

namespace potentials.modules.localRemainder

variable {α β : Type} {N : Nat}

theorem foldl_sub_diag [Sub α] (d : Fin N → α) (l : List (Fin N)) :
    ∀ (C : Matrix (Fin N) (Fin N) α), l.Nodup → ∀ a b,
      (l.foldl (fun C i => sub_diag C i (d i)) C) a b =
        if a = b ∧ a ∈ l then C a a - d a else C a b := by
  induction l with
  | nil => intro C _ a b; simp
  | cons i t ih =>
    intro C hl a b
    rw [List.nodup_cons] at hl
    rw [List.foldl_cons, ih _ hl.2]
    by_cases hab : a = b
    · subst hab
      by_cases hat : a ∈ t
      · have hai : a ≠ i := fun e => hl.1 (e ▸ hat)
        simp [hat, sub_diag, Function.update_noteq hai]
      · by_cases hai : a = i
        · subst hai; simp [hat, sub_diag]
        · simp [hat, hai, sub_diag, Function.update_noteq hai]
    · by_cases hai : a = i
      · subst hai
        have hba : b ≠ a := fun e => hab e.symm
        simp [hab, sub_diag, Function.update_noteq hba]
      · simp [hab, sub_diag, Function.update_noteq hai]

/-- C8: for `N ≥ 2`, `Inhomogenous::apply(V, u)` returns `C` with
`C(i, i) = V(i, i) - u(i)` for every `i` and `C(i, j) = V(i, j)` for `i ≠ j`,
where `V` is read through the coefficient-wise cast. -/
theorem Inhomogenous_apply_spec [Sub α] (cast : β → α) (_hN : 2 ≤ N)
    (V : Matrix (Fin N) (Fin N) β) (u : Fin N → α) :
    (∀ i, helper.DiagonalDifference.Inhomogenous.apply cast V u i i = cast (V i i) - u i) ∧
    (∀ i j, i ≠ j → helper.DiagonalDifference.Inhomogenous.apply cast V u i j = cast (V i j)) := by
  constructor
  · intro i
    simp [helper.DiagonalDifference.Inhomogenous.apply,
      foldl_sub_diag u _ _ (List.nodup_finRange N)]
  · intro i j hij
    simp [helper.DiagonalDifference.Inhomogenous.apply,
      foldl_sub_diag u _ _ (List.nodup_finRange N), hij]

theorem Homogenous_remainder_entries {Arg : Type} [Sub α] (cast : β → α)
    (evaluate_at : Arg → Matrix (Fin N) (Fin N) β) (leading : Arg → Arg → α) (x q : Arg)
    (a b : Fin N) :
    Abstract.evaluate_local_remainder_at (Homogenous cast evaluate_at leading) x q a b =
      if a = b then cast (evaluate_at x a a) - leading x q else cast (evaluate_at x a b) := by
  simp [Homogenous, Abstract.evaluate_local_remainder_at,
    General.evaluate_local_remainder_at_implementation,
    helper.DiagonalDifference.Homogenous.apply,
    foldl_sub_diag (fun _ => leading x q) _ _ (List.nodup_finRange N)]

/-- C9 as amended: for the homogeneous local remainder with `N ≥ 2`,
`evaluate_local_remainder_at(x, q)` is `V(x)` with the scalar
`u = evaluate_local_quadratic_at(x, q)` of the leading level subtracted, by the
subtraction of the scalar type, from every diagonal entry, and with the
off-diagonal entries unchanged. -/
theorem Homogenous_remainder_spec {Arg : Type} [Sub α] (cast : β → α) (_hN : 2 ≤ N)
    (evaluate_at : Arg → Matrix (Fin N) (Fin N) β) (leading : Arg → Arg → α) (x q : Arg) :
    (∀ i, Abstract.evaluate_local_remainder_at (Homogenous cast evaluate_at leading) x q i i =
        cast (evaluate_at x i i) - leading x q) ∧
    (∀ i j, i ≠ j →
      Abstract.evaluate_local_remainder_at (Homogenous cast evaluate_at leading) x q i j =
        cast (evaluate_at x i j)) := by
  refine ⟨fun i => ?_, fun i j hij => ?_⟩
  · rw [Homogenous_remainder_entries, if_pos rfl]
  · rw [Homogenous_remainder_entries, if_neg hij]

/-- In exact arithmetic (the scalars form a ring) adding `u` times the identity to
the homogeneous local remainder gives `V(x)` back. -/
theorem Homogenous_remainder_exact_of_ring {Arg : Type} [Ring α] (cast : β → α)
    (evaluate_at : Arg → Matrix (Fin N) (Fin N) β) (leading : Arg → Arg → α) (x q : Arg) :
    recovers (fun a b => a + b) (fun a b => a * b) 0 1
      (Abstract.evaluate_local_remainder_at (Homogenous cast evaluate_at leading) x q)
      (leading x q) (fun i j => cast (evaluate_at x i j)) := by
  intro a b
  rw [Homogenous_remainder_entries]
  by_cases hab : a = b
  · subst hab; simp
  · simp [hab]

/-- On integers of at most 53 bits the rounding is the identity. -/
theorem round53_exact (x : Int) (h : x.natAbs < 2 ^ 53) : round53 x = x := by
  have hk : dropped_bits 1024 x.natAbs = 0 := by
    show dropped_bits (1023 + 1) x.natAbs = 0
    rw [dropped_bits, if_pos h]
  simp only [round53, hk]
  simp [Nat.mod_one, Int.sign_mul_abs]

/-- C9 fails in machine arithmetic: with `V = [[1, 0], [0, 1]]` and `u = 1e16` in
binary64, the remainder has the diagonal entry `1 - 1e16`, stored as `-1e16`;
adding `u` times the identity back gives `0`, whereas `V(0, 0) = 1`. -/
theorem Homogenous_remainder_not_exact :
    (Abstract.evaluate_local_remainder_at remainder64 () () 0 0).val = -10000000000000000 ∧
    (Binary64.add (Abstract.evaluate_local_remainder_at remainder64 () () 0 0)
      (Binary64.mul (lead_big () ()) ⟨1⟩)).val = 0 ∧
    (pot_id () 0 0).val = 1 ∧
    ¬ recovers Binary64.add Binary64.mul ⟨0⟩ ⟨1⟩
        (Abstract.evaluate_local_remainder_at remainder64 () ()) (lead_big () ()) (pot_id ()) := by
  refine ⟨by decide, by decide, by decide, ?_⟩
  intro h
  have h00 := congrArg Binary64.val (h 0 0)
  revert h00
  decide

/-- Witness of C8 at `N = 2`. -/
theorem Inhomogenous_apply_spec_witness :
    2 ≤ 2 ∧
    ((∀ i, helper.DiagonalDifference.Inhomogenous.apply cast_int V2 u2 i i =
        cast_int (V2 i i) - u2 i) ∧
    (∀ i j, i ≠ j →
      helper.DiagonalDifference.Inhomogenous.apply cast_int V2 u2 i j = cast_int (V2 i j))) :=
  ⟨le_refl 2, Inhomogenous_apply_spec cast_int (le_refl 2) V2 u2⟩

/-- Witness of C9 at `N = 2`. -/
theorem Homogenous_remainder_spec_witness :
    2 ≤ 2 ∧
    ((∀ i, Abstract.evaluate_local_remainder_at (Homogenous cast_int pot2 lead2) 3 1 i i =
        cast_int (pot2 3 i i) - lead2 3 1) ∧
    (∀ i j, i ≠ j →
      Abstract.evaluate_local_remainder_at (Homogenous cast_int pot2 lead2) 3 1 i j =
        cast_int (pot2 3 i j))) :=
  ⟨le_refl 2, Homogenous_remainder_spec cast_int (le_refl 2) pot2 lead2 3 1⟩

end potentials.modules.localRemainder

end waveblocks
